import Mathlib

/-!
Shallow embedding of the core of `AoC_2022/filter_map/filter_map.py`:
the per-member progress scan (`getMemberProgress`), the ranking pass
(`orderMembers`) and the survival statistics (`plotStats`).

Python floats are modelled as rationals (`ℚ`); the unbounded default
time limit (`math.inf`) is the top element of `WithTop ℚ`; timestamps
are integers (`ℤ`).  Calls to the process-wide random source
(`random.random()`, `random.uniform`) are modelled as explicit draw
parameters: `random.random()` yields a value in `[0, 1)`.
-/

/-- The subset of the script's `OPTS` table that the core computation reads:
`day_min`, `days_total`, `days_passed` and `time_limit` (`math.inf` by
default, hence `WithTop ℚ`). -/
structure Opts where
  day_min : ℕ
  days_total : ℕ
  days_passed : ℕ
  time_limit : WithTop ℚ

/-- The constant `DELTA = 0.15`, the x-offset of the filter lines. -/
def DELTA : ℚ := 15 / 100

/-- One day's entry of `completion_day_level`: the optional
`get_star_ts` timestamps of part 1 and part 2. -/
structure DayLevel where
  star1 : Option ℤ
  star2 : Option ℤ

/-- One member record as read from the input JSON (derived fields are
computed separately, mirroring the in-place mutation of the script). -/
structure Member where
  id : ℤ
  global_score : ℤ
  local_score : ℤ
  stars : ℤ
  completion_day_level : ℕ → Option DayLevel

/-- The nested helper `randDelta(delta)`: `random.random() * delta * 2 - delta`,
with the draw `r` of `random.random()` made explicit. -/
def randDelta (r delta : ℚ) : ℚ := r * delta * 2 - delta

/-- The per-day puzzle start instant: `event_start_time + 86400 * (day - 1)`. -/
def start_time (event_start : ℤ) (day : ℕ) : ℤ :=
  event_start + 86400 * ((day : ℤ) - 1)

/-- The pass test applied to each part:
`time is not None and time - start_time <= OPTS["time_limit"]`. -/
def passPart (time_limit : WithTop ℚ) (st : ℤ) (t : Option ℤ) : Bool :=
  match t with
  | none => false
  | some ts => decide ((((ts - st : ℤ) : ℚ) : WithTop ℚ) ≤ time_limit)

/-- Whether part 1 of `day` is completed in time (the script's `pass1`). -/
def passDay1 (o : Opts) (es : ℤ) (comp : ℕ → Option DayLevel) (day : ℕ) : Bool :=
  passPart o.time_limit (start_time es day) ((comp day).bind DayLevel.star1)

/-- Whether part 2 of `day` is completed in time (the script's `pass2`). -/
def passDay2 (o : Opts) (es : ℤ) (comp : ℕ → Option DayLevel) (day : ℕ) : Bool :=
  passPart o.time_limit (start_time es day) ((comp day).bind DayLevel.star2)

/-- Whether both parts of `day` pass (the scan continues past `day`). -/
def passDay (o : Opts) (es : ℤ) (comp : ℕ → Option DayLevel) (day : ℕ) : Bool :=
  passDay1 o es comp day && passDay2 o es comp day

/-- The derived fields written by `getMemberProgress` for one member,
plus `fail_day`: the day whose `filtered_by_day` counter this member
increments (`none` when the scan completes without failing). -/
structure ProgressResult where
  progress : ℚ
  progress_exact : ℚ
  filtered : Bool
  fail_day : Option ℕ
deriving DecidableEq

/-- The body of the member loop of `getMemberProgress`: scan days starting
at `day`, with `fuel` days left to examine (`fuel = days_total + 1 - day`
at the top-level call), breaking at the first day whose part 1 or part 2
fails; `r` is the draw of `random.random()` consumed by `randDelta` if a
speculative branch is reached. -/
def scanFrom (o : Opts) (es : ℤ) (comp : ℕ → Option DayLevel) (r : ℚ) :
    ℕ → ℕ → ProgressResult
  | _, 0 =>
    ⟨(o.days_total : ℚ) + 2, (o.days_total : ℚ) + 2, false, none⟩
  | day, fuel + 1 =>
    if passDay1 o es comp day = false then
      if day ≤ o.days_passed then
        ⟨(day : ℚ) - DELTA, (day : ℚ) - DELTA, true, some day⟩
      else
        ⟨(day : ℚ) - 1/2 + randDelta r (15/100), (day : ℚ) - 1/2, false, some day⟩
    else if passDay2 o es comp day = false then
      if day ≤ o.days_passed then
        ⟨(day : ℚ) + DELTA, (day : ℚ) + DELTA, true, some day⟩
      else
        ⟨(day : ℚ) + randDelta r (5/100), (day : ℚ), false, some day⟩
    else
      scanFrom o es comp r (day + 1) fuel

/-- The progress computation for a single member: scan the days
`day_min, …, days_total` in increasing order. -/
def memberProgress (o : Opts) (es : ℤ) (comp : ℕ → Option DayLevel) (r : ℚ) :
    ProgressResult :=
  scanFrom o es comp r o.day_min (o.days_total + 1 - o.day_min)

/-- The whole `getMemberProgress` loop over the member collection, with the
per-member random draw supplied by `rs` at the member's insertion index. -/
def getMemberProgress (o : Opts) (es : ℤ) (members : List Member) (rs : ℕ → ℚ) :
    List ProgressResult :=
  members.enum.map fun p => memberProgress o es p.2.completion_day_level (rs p.1)

/-- The `filtered_by_day` tally returned by `getMemberProgress`: each member
increments the counter of its `fail_day` by one. -/
def filtered_by_day (o : Opts) (es : ℤ) (members : List Member) (rs : ℕ → ℚ)
    (day : ℕ) : ℕ :=
  (getMemberProgress o es members rs).countP fun R => R.fail_day == some day

/-- The ordering modes accepted by `orderMembers` (`local`/`global`/`id`
spelled `byLocal`/`byGlobal`/`byId` to avoid keyword clashes). -/
inductive OrderMode where
  | id1000
  | byId
  | byGlobal
  | byLocal
  | byProgress
  | byStars
  | magic
deriving DecidableEq

/-- A member record as seen by `orderMembers`: the static fields together
with the derived fields written by `getMemberProgress` that the ordering
keys read (`progress_exact`, `filtered`). -/
structure EMember where
  id : ℤ
  global_score : ℤ
  local_score : ℤ
  stars : ℤ
  progress_exact : ℚ
  filtered : Bool
deriving DecidableEq

/-- The enrichment of a raw member with its scan result, packaging the
fields that `orderMembers` reads. -/
def enrichMember (m : Member) (R : ProgressResult) : EMember :=
  ⟨m.id, m.global_score, m.local_score, m.stars, R.progress_exact, R.filtered⟩

/-- Enrichment of the whole collection, with per-member draws `rs`. -/
def enrichAll (o : Opts) (es : ℤ) (members : List Member) (rs : ℕ → ℚ) :
    List EMember :=
  members.enum.map fun p =>
    enrichMember p.2 (memberProgress o es p.2.completion_day_level (rs p.1))

/-- The `order_func` key selected by each mode (`magic` shares the
`id % 1000` key of `id1000`; Python's `%` on a positive modulus agrees
with `Int.emod`). -/
def order_func : OrderMode → EMember → ℚ
  | OrderMode.id1000, m => ((m.id % 1000 : ℤ) : ℚ)
  | OrderMode.magic, m => ((m.id % 1000 : ℤ) : ℚ)
  | OrderMode.byId, m => (m.id : ℚ)
  | OrderMode.byGlobal, m => (m.global_score : ℚ)
  | OrderMode.byLocal, m => (m.local_score : ℚ)
  | OrderMode.byProgress, m => m.progress_exact
  | OrderMode.byStars, m => (m.stars : ℚ)

/-- The stable sort `sorted(members.values(), key=order_func)`: members are
tagged with their insertion index, and Python's stable sort is modelled as
`mergeSort` under `enumLE`, which breaks key ties by insertion index. -/
def members_ordered (mode : OrderMode) (members : List EMember) :
    List (ℕ × EMember) :=
  members.enum.mergeSort
    (List.enumLE fun a b => decide (order_func mode a ≤ order_func mode b))

/-- The primary write pass of `orderMembers`:
`member["y"] = (i+1)/len(members)` along the sorted order. -/
def primary_assign (mode : OrderMode) (members : List EMember) :
    List ((ℕ × EMember) × ℚ) :=
  (members_ordered mode members).enum.map fun p =>
    (p.2, ((p.1 : ℚ) + 1) / (members.length : ℚ))

/-- Python's float modulo `a % b` for `b > 0`: `a - b * ⌊a / b⌋`. -/
def pymod (a b : ℚ) : ℚ := a - b * ⌊a / b⌋

/-- The magic-mode list `ms`: the unfiltered members (in insertion order)
re-sorted by `id % 1000`, again stably. -/
def magic_ms (members : List EMember) : List (ℕ × EMember) :=
  (members.enum.filter fun p => !p.2.filtered).mergeSort
    (List.enumLE fun a b => decide (((a.id % 1000 : ℤ) : ℚ) ≤ ((b.id % 1000 : ℤ) : ℚ)))

/-- The magic-mode write pass: if `ms` is nonempty, the member at position
`i` of `ms` receives `offset + i * dy + uniform(-dy/4, dy/4)`, where
`dy = 1/len(ms)`, `offset = random.random() % dy` (draw `offset_draw`) and
the per-member `uniform` draw is `jitter i`. -/
def magic_assign (members : List EMember) (offset_draw : ℚ) (jitter : ℕ → ℚ) :
    List ((ℕ × EMember) × ℚ) :=
  let ms := magic_ms members
  if ms.length = 0 then []
  else
    let dy : ℚ := 1 / (ms.length : ℚ)
    let offset : ℚ := pymod offset_draw dy
    ms.enum.map fun p => (p.2, offset + (p.1 : ℚ) * dy + jitter p.1)

/-- In-place overwriting of the `y` field: every entry of `prim` whose
insertion index was re-written by `ov` takes the new value. -/
def apply_overwrites (prim ov : List ((ℕ × EMember) × ℚ)) :
    List ((ℕ × EMember) × ℚ) :=
  prim.map fun e =>
    match ov.find? (fun q => q.1.1 == e.1.1) with
    | some q => (e.1, q.2)
    | none => e

/-- The whole `orderMembers`: the primary write pass, followed in magic
mode by the re-write of the unfiltered members' positions. -/
def orderMembers (mode : OrderMode) (members : List EMember)
    (offset_draw : ℚ) (jitter : ℕ → ℚ) : List ((ℕ × EMember) × ℚ) :=
  if mode = OrderMode.magic then
    apply_overwrites (primary_assign mode members)
      (magic_assign members offset_draw jitter)
  else
    primary_assign mode members

/-- The `remaining_by_day` table of `plotStats`:
`remaining_by_day[0] = len(members)` and
`remaining_by_day[i] = remaining_by_day[i-1] - filtered_by_day[i]`. -/
def remaining_by_day (total : ℤ) (fbd : ℕ → ℕ) : ℕ → ℤ
  | 0 => total
  | d + 1 => remaining_by_day total fbd d - (fbd (d + 1) : ℤ)

/-- The per-day statistics printed by `plotStats` for day `i ≥ 1`:
`none` models the `continue` taken when `remaining_by_day[i-1] == 0`;
otherwise the triple `(pass_frac, percent_filtered, percent_total)`. -/
def day_stats (total : ℤ) (fbd : ℕ → ℕ) (i : ℕ) : Option (ℚ × ℚ × ℚ) :=
  if remaining_by_day total fbd (i - 1) = 0 then none
  else
    let pass_frac : ℚ :=
      (remaining_by_day total fbd i : ℚ) / (remaining_by_day total fbd (i - 1) : ℚ)
    let total_frac : ℚ :=
      (remaining_by_day total fbd i : ℚ) / (remaining_by_day total fbd 0 : ℚ)
    some (pass_frac, 100 * (1 - pass_frac), 100 * total_frac)

/-- The predicate "day `d` is the first failing day of the scan": `d` lies
in the scanned range, every earlier scanned day passes both parts, and at
`d` some part fails. -/
abbrev firstFail (o : Opts) (es : ℤ) (comp : ℕ → Option DayLevel) (d : ℕ) : Prop :=
  o.day_min ≤ d ∧ d ≤ o.days_total ∧
    (∀ e, e < d → o.day_min ≤ e → passDay o es comp e = true) ∧
    passDay o es comp d = false

/-- The predicate "the scan completes without failing": every scanned day
passes both parts. -/
abbrev allPass (o : Opts) (es : ℤ) (comp : ℕ → Option DayLevel) : Prop :=
  ∀ e, e ≤ o.days_total → o.day_min ≤ e → passDay o es comp e = true

/-! ### Concrete fixtures used by witness and counterexample theorems -/

/-- A one-day event, fully elapsed, no time limit. -/
def o111 : Opts := ⟨1, 1, 1, ⊤⟩

/-- A three-day event, fully elapsed, no time limit. -/
def o133 : Opts := ⟨1, 3, 3, ⊤⟩

/-- A three-day event of which no day has elapsed yet. -/
def o130 : Opts := ⟨1, 3, 0, ⊤⟩

/-- A member who gets only the first star of day 1. -/
def compFail2 : ℕ → Option DayLevel :=
  fun d => if d = 1 then some ⟨some 0, none⟩ else none

/-- A member who gets every star immediately. -/
def compAll : ℕ → Option DayLevel := fun _ => some ⟨some 0, some 0⟩

/-- A member with no stars at all. -/
def compNone : ℕ → Option DayLevel := fun _ => none

/-- The spec's participant B: both stars of day 1, only the first star of
day 2. -/
def compB : ℕ → Option DayLevel :=
  fun d => if d = 1 then some ⟨some 0, some 0⟩
    else if d = 2 then some ⟨some 100, none⟩ else none

/-- An unfiltered enriched member. -/
def emU : EMember := ⟨7, 0, 0, 0, 5, false⟩

/-- A filtered enriched member. -/
def emF : EMember := ⟨3, 0, 0, 0, 2, true⟩

/-! ### Helper lemmas about the day scan -/

theorem randDelta_abs_le {r delta : ℚ} (h0 : 0 ≤ r) (h1 : r < 1) (hd : 0 ≤ delta) :
    |randDelta r delta| ≤ delta := by
  rw [abs_le, randDelta]
  constructor <;> nlinarith

theorem scanFrom_r_irrel (o : Opts) (es : ℤ) (comp : ℕ → Option DayLevel) (r r' : ℚ) :
    ∀ (fuel day : ℕ),
      (scanFrom o es comp r day fuel).progress_exact
          = (scanFrom o es comp r' day fuel).progress_exact ∧
      (scanFrom o es comp r day fuel).filtered
          = (scanFrom o es comp r' day fuel).filtered ∧
      (scanFrom o es comp r day fuel).fail_day
          = (scanFrom o es comp r' day fuel).fail_day := by
  intro fuel
  induction fuel with
  | zero => exact fun day => ⟨rfl, rfl, rfl⟩
  | succ n ih =>
    intro day
    by_cases h1 : passDay1 o es comp day = false
    · by_cases h2 : day ≤ o.days_passed <;> simp [scanFrom, h1, h2]
    · rw [Bool.not_eq_false] at h1
      by_cases h2 : passDay2 o es comp day = false
      · by_cases h3 : day ≤ o.days_passed <;> simp [scanFrom, h1, h2, h3]
      · rw [Bool.not_eq_false] at h2
        simpa [scanFrom, h1, h2] using ih (day + 1)

theorem scanFrom_fail1_elim {o : Opts} {es : ℤ} {comp : ℕ → Option DayLevel} {r : ℚ}
    {day n : ℕ} (hp1 : passDay1 o es comp day = false) (h2 : day ≤ o.days_passed) :
    scanFrom o es comp r day (n + 1)
      = ⟨(day : ℚ) - DELTA, (day : ℚ) - DELTA, true, some day⟩ := by
  simp [scanFrom, hp1, h2]

theorem scanFrom_fail1_spec {o : Opts} {es : ℤ} {comp : ℕ → Option DayLevel} {r : ℚ}
    {day n : ℕ} (hp1 : passDay1 o es comp day = false) (h2 : ¬ day ≤ o.days_passed) :
    scanFrom o es comp r day (n + 1)
      = ⟨(day : ℚ) - 1/2 + randDelta r (15/100), (day : ℚ) - 1/2, false, some day⟩ := by
  simp [scanFrom, hp1, h2]

theorem scanFrom_fail2_elim {o : Opts} {es : ℤ} {comp : ℕ → Option DayLevel} {r : ℚ}
    {day n : ℕ} (hp1 : passDay1 o es comp day = true)
    (hp2 : passDay2 o es comp day = false) (h2 : day ≤ o.days_passed) :
    scanFrom o es comp r day (n + 1)
      = ⟨(day : ℚ) + DELTA, (day : ℚ) + DELTA, true, some day⟩ := by
  simp [scanFrom, hp1, hp2, h2]

theorem scanFrom_fail2_spec {o : Opts} {es : ℤ} {comp : ℕ → Option DayLevel} {r : ℚ}
    {day n : ℕ} (hp1 : passDay1 o es comp day = true)
    (hp2 : passDay2 o es comp day = false) (h2 : ¬ day ≤ o.days_passed) :
    scanFrom o es comp r day (n + 1)
      = ⟨(day : ℚ) + randDelta r (5/100), (day : ℚ), false, some day⟩ := by
  simp [scanFrom, hp1, hp2, h2]

theorem scanFrom_step {o : Opts} {es : ℤ} {comp : ℕ → Option DayLevel} {r : ℚ}
    {day n : ℕ} (hp1 : passDay1 o es comp day = true)
    (hp2 : passDay2 o es comp day = true) :
    scanFrom o es comp r day (n + 1) = scanFrom o es comp r (day + 1) n := by
  simp [scanFrom, hp1, hp2]

theorem scanFrom_bounds (o : Opts) (es : ℤ) (comp : ℕ → Option DayLevel) {r : ℚ}
    (h0 : 0 ≤ r) (h1 : r < 1) :
    ∀ (fuel day : ℕ),
      |(scanFrom o es comp r day fuel).progress
          - (scanFrom o es comp r day fuel).progress_exact| ≤ 15/100 ∧
      (∀ d, (scanFrom o es comp r day fuel).fail_day = some d →
        passDay1 o es comp d = true →
        |(scanFrom o es comp r day fuel).progress
            - (scanFrom o es comp r day fuel).progress_exact| ≤ 5/100) := by
  intro fuel
  induction fuel with
  | zero =>
    intro day
    refine ⟨?_, ?_⟩
    · simp only [scanFrom, sub_self, abs_zero]
      norm_num
    · intro d hd
      simp only [scanFrom] at hd
      exact absurd hd (by simp)
  | succ n ih =>
    intro day
    by_cases hp1 : passDay1 o es comp day = false
    · by_cases h2 : day ≤ o.days_passed
      · rw [scanFrom_fail1_elim hp1 h2]
        refine ⟨by norm_num, ?_⟩
        intro d hd hp
        simp only [Option.some.injEq] at hd
        rw [← hd] at hp
        rw [hp] at hp1
        exact absurd hp1 (by simp)
      · rw [scanFrom_fail1_spec hp1 h2]
        have hb : |randDelta r (15/100)| ≤ 15/100 :=
          randDelta_abs_le h0 h1 (by norm_num)
        refine ⟨?_, ?_⟩
        · simpa [add_sub_cancel_left] using hb
        · intro d hd hp
          simp only [Option.some.injEq] at hd
          rw [← hd] at hp
          rw [hp] at hp1
          exact absurd hp1 (by simp)
    · rw [Bool.not_eq_false] at hp1
      by_cases hp2 : passDay2 o es comp day = false
      · by_cases h2 : day ≤ o.days_passed
        · rw [scanFrom_fail2_elim hp1 hp2 h2]
          refine ⟨by norm_num, ?_⟩
          intro d _ _
          norm_num
        · rw [scanFrom_fail2_spec hp1 hp2 h2]
          have hb : |randDelta r (5/100)| ≤ 5/100 :=
            randDelta_abs_le h0 h1 (by norm_num)
          refine ⟨?_, ?_⟩
          · have : |(day:ℚ) + randDelta r (5/100) - (day:ℚ)| ≤ 5/100 := by
              simpa [add_sub_cancel_left] using hb
            calc |(day:ℚ) + randDelta r (5/100) - (day:ℚ)| ≤ 5/100 := this
              _ ≤ 15/100 := by norm_num
          · intro d _ _
            simpa [add_sub_cancel_left] using hb
      · rw [Bool.not_eq_false] at hp2
        rw [scanFrom_step hp1 hp2]
        exact ih (day + 1)

theorem scanFrom_reach (o : Opts) (es : ℤ) (comp : ℕ → Option DayLevel) (r : ℚ) :
    ∀ (k day m : ℕ),
      (∀ e, day ≤ e → e < day + k → passDay o es comp e = true) →
      scanFrom o es comp r day (k + m) = scanFrom o es comp r (day + k) m := by
  intro k
  induction k with
  | zero => intro day m _; simp
  | succ n ih =>
    intro day m h
    have hday : passDay o es comp day = true := h day (le_refl _) (by omega)
    rw [passDay, Bool.and_eq_true] at hday
    have hstep : n + 1 + m = (n + m) + 1 := by omega
    rw [hstep, scanFrom_step hday.1 hday.2]
    have := ih (day + 1) m (fun e he1 he2 => h e (by omega) (by omega))
    rw [this]
    congr 1
    omega

theorem scanFrom_allpass (o : Opts) (es : ℤ) (comp : ℕ → Option DayLevel) (r : ℚ) :
    ∀ (fuel day : ℕ),
      (∀ e, day ≤ e → e < day + fuel → passDay o es comp e = true) →
      scanFrom o es comp r day fuel
        = ⟨(o.days_total : ℚ) + 2, (o.days_total : ℚ) + 2, false, none⟩ := by
  intro fuel
  induction fuel with
  | zero => intro day _; rfl
  | succ n ih =>
    intro day h
    have hday : passDay o es comp day = true := h day (le_refl _) (by omega)
    rw [passDay, Bool.and_eq_true] at hday
    rw [scanFrom_step hday.1 hday.2]
    exact ih (day + 1) (fun e he1 he2 => h e (by omega) (by omega))

theorem scanFrom_fail_day_spec (o : Opts) (es : ℤ) (comp : ℕ → Option DayLevel) (r : ℚ) :
    ∀ (fuel day d : ℕ),
      (scanFrom o es comp r day fuel).fail_day = some d →
      day ≤ d ∧ d < day + fuel ∧
        (∀ e, day ≤ e → e < d → passDay o es comp e = true) ∧
        passDay o es comp d = false := by
  intro fuel
  induction fuel with
  | zero =>
    intro day d h
    exact absurd h (by simp [scanFrom])
  | succ n ih =>
    intro day d h
    by_cases hp1 : passDay1 o es comp day = false
    · have hd : day = d := by
        by_cases h2 : day ≤ o.days_passed
        · rw [scanFrom_fail1_elim hp1 h2] at h
          simpa using h
        · rw [scanFrom_fail1_spec hp1 h2] at h
          simpa using h
      subst hd
      refine ⟨le_refl _, by omega, fun e he1 he2 => absurd he2 (by omega), ?_⟩
      simp [passDay, hp1]
    · rw [Bool.not_eq_false] at hp1
      by_cases hp2 : passDay2 o es comp day = false
      · have hd : day = d := by
          by_cases h2 : day ≤ o.days_passed
          · rw [scanFrom_fail2_elim hp1 hp2 h2] at h
            simpa using h
          · rw [scanFrom_fail2_spec hp1 hp2 h2] at h
            simpa using h
        subst hd
        refine ⟨le_refl _, by omega, fun e he1 he2 => absurd he2 (by omega), ?_⟩
        simp [passDay, hp1, hp2]
      · rw [Bool.not_eq_false] at hp2
        rw [scanFrom_step hp1 hp2] at h
        obtain ⟨h1, h2, h3, h4⟩ := ih (day + 1) d h
        refine ⟨by omega, by omega, ?_, h4⟩
        intro e he1 he2
        rcases Nat.eq_or_lt_of_le he1 with he | he
        · rw [← he]
          simp [passDay, hp1, hp2]
        · exact h3 e (by omega) he2

theorem memberProgress_firstFail (o : Opts) (es : ℤ) (comp : ℕ → Option DayLevel)
    (r : ℚ) (d : ℕ) (h : firstFail o es comp d) :
    memberProgress o es comp r = scanFrom o es comp r d (o.days_total + 1 - d) := by
  obtain ⟨h1, h2, h3, _⟩ := h
  rw [memberProgress]
  have hf : o.days_total + 1 - o.day_min = (d - o.day_min) + (o.days_total + 1 - d) := by
    omega
  rw [hf, scanFrom_reach o es comp r (d - o.day_min) o.day_min _
    (fun e he1 he2 => h3 e (by omega) he1)]
  congr 1
  omega

theorem memberProgress_allPass (o : Opts) (es : ℤ) (comp : ℕ → Option DayLevel)
    (r : ℚ) (h : allPass o es comp) :
    memberProgress o es comp r
      = ⟨(o.days_total : ℚ) + 2, (o.days_total : ℚ) + 2, false, none⟩ := by
  rw [memberProgress]
  exact scanFrom_allpass o es comp r _ _ (fun e he1 he2 => h e (by omega) he1)

theorem memberProgress_fail_day (o : Opts) (es : ℤ) (comp : ℕ → Option DayLevel)
    (r : ℚ) (d : ℕ) :
    (memberProgress o es comp r).fail_day = some d ↔ firstFail o es comp d := by
  constructor
  · intro h
    obtain ⟨h1, h2, h3, h4⟩ := scanFrom_fail_day_spec o es comp r _ _ _ h
    exact ⟨h1, by omega, fun e he1 he2 => h3 e he2 he1, h4⟩
  · intro h
    obtain ⟨h1, h2, h3, h4⟩ := h
    rw [memberProgress_firstFail o es comp r d ⟨h1, h2, h3, h4⟩]
    have hfuel : o.days_total + 1 - d = (o.days_total - d) + 1 := by omega
    rw [hfuel]
    by_cases hp1 : passDay1 o es comp d = false
    · by_cases hdp : d ≤ o.days_passed
      · rw [scanFrom_fail1_elim hp1 hdp]
      · rw [scanFrom_fail1_spec hp1 hdp]
    · rw [Bool.not_eq_false] at hp1
      have hp2 : passDay2 o es comp d = false := by
        rcases Bool.eq_false_or_eq_true (passDay2 o es comp d) with h | h
        · rw [passDay, hp1, h] at h4
          exact absurd h4 (by simp)
        · exact h
      by_cases hdp : d ≤ o.days_passed
      · rw [scanFrom_fail2_elim hp1 hp2 hdp]
      · rw [scanFrom_fail2_spec hp1 hp2 hdp]

theorem memberProgress_none (o : Opts) (es : ℤ) (comp : ℕ → Option DayLevel) (r : ℚ) :
    (memberProgress o es comp r).fail_day = none ↔ allPass o es comp := by
  constructor
  · intro h
    intro e he1 he2
    by_contra hne
    rw [Bool.not_eq_true] at hne
    have hex : ∃ x, x ≤ o.days_total ∧ o.day_min ≤ x ∧ passDay o es comp x = false := ⟨e, he1, he2, hne⟩
    classical
    let P : ℕ → Prop := fun x => x ≤ o.days_total ∧ o.day_min ≤ x ∧ passDay o es comp x = false
    have hP : ∃ x, P x := hex
    obtain ⟨hd1, hd2, hd3⟩ := Nat.find_spec hP
    have hff : firstFail o es comp (Nat.find hP) := by
      refine ⟨hd2, hd1, ?_, hd3⟩
      intro x hx1 hx2
      by_contra hxp
      rw [Bool.not_eq_true] at hxp
      exact absurd (Nat.find_min hP hx1 ⟨by omega, hx2, hxp⟩) (by simp)
    rw [(memberProgress_fail_day o es comp r _).mpr hff] at h
    simp at h
  · intro h
    rw [memberProgress_allPass o es comp r h]

theorem scanFrom_filtered_bound (o : Opts) (es : ℤ) (comp : ℕ → Option DayLevel)
    (r : ℚ) :
    ∀ (fuel day : ℕ),
      (scanFrom o es comp r day fuel).filtered = true →
      (scanFrom o es comp r day fuel).progress_exact ≤ (o.days_passed : ℚ) + DELTA := by
  intro fuel
  induction fuel with
  | zero =>
    intro day h
    exact absurd h (by simp [scanFrom])
  | succ n ih =>
    intro day h
    by_cases hp1 : passDay1 o es comp day = false
    · by_cases h2 : day ≤ o.days_passed
      · rw [scanFrom_fail1_elim hp1 h2]
        have hc : (day : ℚ) ≤ (o.days_passed : ℚ) := by exact_mod_cast h2
        have hd : (0 : ℚ) ≤ DELTA := by rw [DELTA]; norm_num
        simp only
        linarith
      · rw [scanFrom_fail1_spec hp1 h2] at h
        exact absurd h (by simp)
    · rw [Bool.not_eq_false] at hp1
      by_cases hp2 : passDay2 o es comp day = false
      · by_cases h2 : day ≤ o.days_passed
        · rw [scanFrom_fail2_elim hp1 hp2 h2]
          have hc : (day : ℚ) ≤ (o.days_passed : ℚ) := by exact_mod_cast h2
          simp only
          linarith
        · rw [scanFrom_fail2_spec hp1 hp2 h2] at h
          exact absurd h (by simp)
      · rw [Bool.not_eq_false] at hp2
        rw [scanFrom_step hp1 hp2] at h ⊢
        exact ih (day + 1) h

theorem passDay_dp_irrel (o o' : Opts) (es : ℤ) (comp : ℕ → Option DayLevel)
    (h3 : o.time_limit = o'.time_limit) (day : ℕ) :
    passDay1 o es comp day = passDay1 o' es comp day ∧
      passDay2 o es comp day = passDay2 o' es comp day := by
  rw [passDay1, passDay1, passDay2, passDay2, h3]
  exact ⟨rfl, rfl⟩

theorem scanFrom_dp_irrel (o o' : Opts) (es : ℤ) (comp : ℕ → Option DayLevel)
    (r r' : ℚ) (h3 : o.time_limit = o'.time_limit) :
    ∀ (fuel day : ℕ),
      (scanFrom o es comp r day fuel).fail_day
        = (scanFrom o' es comp r' day fuel).fail_day := by
  intro fuel
  induction fuel with
  | zero => intro day; rfl
  | succ n ih =>
    intro day
    obtain ⟨e1, e2⟩ := passDay_dp_irrel o o' es comp h3 day
    by_cases hp1 : passDay1 o es comp day = false
    · have hp1' : passDay1 o' es comp day = false := by rw [← e1]; exact hp1
      by_cases h2 : day ≤ o.days_passed <;>
        by_cases h2' : day ≤ o'.days_passed
      · rw [scanFrom_fail1_elim hp1 h2, scanFrom_fail1_elim hp1' h2']
      · rw [scanFrom_fail1_elim hp1 h2, scanFrom_fail1_spec hp1' h2']
      · rw [scanFrom_fail1_spec hp1 h2, scanFrom_fail1_elim hp1' h2']
      · rw [scanFrom_fail1_spec hp1 h2, scanFrom_fail1_spec hp1' h2']
    · rw [Bool.not_eq_false] at hp1
      have hp1' : passDay1 o' es comp day = true := by rw [← e1]; exact hp1
      by_cases hp2 : passDay2 o es comp day = false
      · have hp2' : passDay2 o' es comp day = false := by rw [← e2]; exact hp2
        by_cases h2 : day ≤ o.days_passed <;>
          by_cases h2' : day ≤ o'.days_passed
        · rw [scanFrom_fail2_elim hp1 hp2 h2, scanFrom_fail2_elim hp1' hp2' h2']
        · rw [scanFrom_fail2_elim hp1 hp2 h2, scanFrom_fail2_spec hp1' hp2' h2']
        · rw [scanFrom_fail2_spec hp1 hp2 h2, scanFrom_fail2_elim hp1' hp2' h2']
        · rw [scanFrom_fail2_spec hp1 hp2 h2, scanFrom_fail2_spec hp1' hp2' h2']
      · rw [Bool.not_eq_false] at hp2
        have hp2' : passDay2 o' es comp day = true := by rw [← e2]; exact hp2
        rw [scanFrom_step hp1 hp2, scanFrom_step hp1' hp2']
        exact ih (day + 1)

/-! ### Claim theorems: the progress scan -/

/-- C1 (amended): after the scan, `filtered = true` implies
`progress_exact ≤ days_passed + DELTA` (the part-2 elimination point of day
`days_passed` lies `DELTA` past the day tick, hence the `+ DELTA` allowance),
and a member whose scan never fails a day is not filtered, regardless of
`days_total`. -/
theorem C1_filtered_window (o : Opts) (es : ℤ) (comp : ℕ → Option DayLevel)
    (r : ℚ) :
    ((memberProgress o es comp r).filtered = true →
      (memberProgress o es comp r).progress_exact ≤ (o.days_passed : ℚ) + DELTA) ∧
    (allPass o es comp → (memberProgress o es comp r).filtered = false) := by
  constructor
  · intro h
    exact scanFrom_filtered_bound o es comp r _ _ h
  · intro h
    rw [memberProgress_allPass o es comp r h]

/-- C1, counterexample to the claim as stated: a member who passes part 1 of
day 1 but fails part 2, in a one-day event with `days_passed = 1`, is
filtered with `progress_exact = 1 + DELTA > days_passed`. -/
theorem C1_filtered_window_cex :
    (memberProgress o111 0 compFail2 0).filtered = true ∧
    ¬ ((memberProgress o111 0 compFail2 0).progress_exact
        ≤ (o111.days_passed : ℚ)) := by
  constructor
  · decide
  · simp [memberProgress, scanFrom, o111, compFail2, passDay1, passDay2,
      passPart, start_time, DELTA]

/-- C1, witness: the amended bound and the all-pass case at concrete inputs. -/
theorem C1_filtered_window_witness :
    ((memberProgress o111 0 compFail2 0).progress_exact
        ≤ (o111.days_passed : ℚ) + DELTA) ∧
    (memberProgress o111 0 compAll 0).filtered = false :=
  ⟨(C1_filtered_window o111 0 compFail2 0).1 (by decide),
   (C1_filtered_window o111 0 compAll 0).2 (by decide)⟩

/-- C2: the scan visits days `day_min … days_total` in increasing order and
stops at the first failing day `d`.  If part 1 fails and `d ≤ days_passed`,
the member is filtered with `progress = progress_exact = d - DELTA`; if part 1
fails and `d > days_passed`, the member stays unfiltered with
`progress_exact = d - 1/2` and `progress = d - 1/2 + randDelta r (15/100)`,
the jitter bounded by `±15/100`; if part 2 fails the offset is `+DELTA`, the
speculative `progress_exact` is exactly `d` and the jitter is bounded by
`±5/100`; if no day fails, the member is unfiltered with
`progress = progress_exact = days_total + 2`. -/
theorem C2_scan_branches (o : Opts) (es : ℤ) (comp : ℕ → Option DayLevel)
    (r : ℚ) (d : ℕ) :
    (firstFail o es comp d →
      (passDay1 o es comp d = false →
        (d ≤ o.days_passed →
          memberProgress o es comp r
            = ⟨(d : ℚ) - DELTA, (d : ℚ) - DELTA, true, some d⟩) ∧
        (¬ d ≤ o.days_passed →
          memberProgress o es comp r
            = ⟨(d : ℚ) - 1/2 + randDelta r (15/100), (d : ℚ) - 1/2, false, some d⟩ ∧
          (0 ≤ r → r < 1 → |randDelta r (15/100)| ≤ 15/100))) ∧
      (passDay1 o es comp d = true →
        (d ≤ o.days_passed →
          memberProgress o es comp r
            = ⟨(d : ℚ) + DELTA, (d : ℚ) + DELTA, true, some d⟩) ∧
        (¬ d ≤ o.days_passed →
          memberProgress o es comp r
            = ⟨(d : ℚ) + randDelta r (5/100), (d : ℚ), false, some d⟩ ∧
          (0 ≤ r → r < 1 → |randDelta r (5/100)| ≤ 5/100)))) ∧
    (allPass o es comp →
      memberProgress o es comp r
        = ⟨(o.days_total : ℚ) + 2, (o.days_total : ℚ) + 2, false, none⟩) := by
  constructor
  · intro hff
    have hreach := memberProgress_firstFail o es comp r d hff
    have hfuel : o.days_total + 1 - d = (o.days_total - d) + 1 := by
      omega
    rw [hfuel] at hreach
    constructor
    · intro hp1
      constructor
      · intro hdp
        rw [hreach, scanFrom_fail1_elim hp1 hdp]
      · intro hdp
        refine ⟨by rw [hreach, scanFrom_fail1_spec hp1 hdp], ?_⟩
        intro h0 h1
        exact randDelta_abs_le h0 h1 (by norm_num)
    · intro hp1
      have hp2 : passDay2 o es comp d = false := by
        rcases Bool.eq_false_or_eq_true (passDay2 o es comp d) with h | h
        · have h4 := hff.2.2.2
          rw [passDay, hp1, h] at h4
          exact absurd h4 (by simp)
        · exact h
      constructor
      · intro hdp
        rw [hreach, scanFrom_fail2_elim hp1 hp2 hdp]
      · intro hdp
        refine ⟨by rw [hreach, scanFrom_fail2_spec hp1 hp2 hdp], ?_⟩
        intro h0 h1
        exact randDelta_abs_le h0 h1 (by norm_num)
  · exact memberProgress_allPass o es comp r

/-- C2, witness: the spec's participant B (fails part 2 on day 2 of a fully
elapsed three-day event) gets the elimination record, and a member with no
failing day gets the sentinel record. -/
theorem C2_scan_branches_witness :
    memberProgress o133 0 compB 0
      = ⟨(2 : ℚ) + DELTA, (2 : ℚ) + DELTA, true, some 2⟩ ∧
    memberProgress o133 0 compAll 0
      = ⟨(3 : ℚ) + 2, (3 : ℚ) + 2, false, none⟩ :=
  ⟨((C2_scan_branches o133 0 compB 0 2).1 (by decide)).2 (by decide) |>.1 (by decide),
   (C2_scan_branches o133 0 compAll 0 1).2 (by decide)⟩

/-- C3: a part passes the time window iff its timestamp is present and
`timestamp - (start + 86400 * (d - 1)) ≤ time_limit`; with the unbounded
limit this reduces to presence of the timestamp; with a 3600-second limit a
timestamp 3601 seconds after the day start fails although present. -/
theorem C3_time_window (tl : WithTop ℚ) (es : ℤ) (d : ℕ) (t : Option ℤ) :
    (passPart tl (start_time es d) t = true ↔
      ∃ ts : ℤ, t = some ts ∧
        (((ts - (es + 86400 * ((d : ℤ) - 1)) : ℤ) : ℚ) : WithTop ℚ) ≤ tl) ∧
    (passPart ⊤ (start_time es d) t = true ↔ t.isSome = true) ∧
    (∀ T : ℤ, passPart ((3600 : ℚ) : WithTop ℚ) T (some (T + 3601)) = false) := by
  refine ⟨?_, ?_, ?_⟩
  · cases t with
    | none => simp [passPart]
    | some ts => simp [passPart, start_time]
  · cases t with
    | none => simp [passPart]
    | some ts => simp [passPart]
  · intro T
    have harg : ((T + 3601 - T : ℤ) : ℚ) = 3601 := by
      push_cast
      ring
    rw [passPart, harg]
    simp only [decide_eq_false_iff_not, WithTop.coe_le_coe]
    norm_num

/-- C7: the returned tally counts, for every day `d`, exactly the members
whose first failing day is `d` — the count is taken whether or not
`d ≤ days_passed` (the `fail_day` of a scan does not depend on
`days_passed`), and a member with no failing day is counted nowhere. -/
theorem C7_tally (o o' : Opts) (es : ℤ) (comp : ℕ → Option DayLevel)
    (r r' : ℚ) (d : ℕ) (members : List Member) (rs : ℕ → ℚ) :
    ((memberProgress o es comp r).fail_day = some d ↔ firstFail o es comp d) ∧
    ((memberProgress o es comp r).fail_day = none ↔ allPass o es comp) ∧
    (o.day_min = o'.day_min → o.days_total = o'.days_total →
      o.time_limit = o'.time_limit →
      (memberProgress o es comp r).fail_day
        = (memberProgress o' es comp r').fail_day) ∧
    (filtered_by_day o es members rs d
      = members.enum.countP fun q =>
          (memberProgress o es q.2.completion_day_level (rs q.1)).fail_day
            == some d) := by
  refine ⟨memberProgress_fail_day o es comp r d, memberProgress_none o es comp r,
    ?_, ?_⟩
  · intro h1 h2 h3
    rw [memberProgress, memberProgress, h1, h2]
    exact scanFrom_dp_irrel o o' es comp r r' h3 _ _
  · rw [filtered_by_day, getMemberProgress, List.countP_map]
    rfl

/-- C7, witness: participant B's tally day is day 2 both when the event has
fully elapsed and when no day has elapsed, and the all-pass member has no
tally day. -/
theorem C7_tally_witness :
    (memberProgress o133 0 compB 0).fail_day = some 2 ∧
    (memberProgress o133 0 compB 0).fail_day = (memberProgress o130 0 compB 1).fail_day ∧
    (memberProgress o133 0 compAll 0).fail_day = none :=
  ⟨(C7_tally o133 o133 0 compB 0 0 2 [] (fun _ => 0)).1.mpr (by decide),
   (C7_tally o133 o130 0 compB 0 1 2 [] (fun _ => 0)).2.2.1 rfl rfl rfl,
   (C7_tally o133 o133 0 compAll 0 0 1 [] (fun _ => 0)).2.1.mpr (by decide)⟩

/-! ### Claim theorems: survival statistics -/

theorem sum_countP_fail_le (s : Finset ℕ) :
    ∀ (results : List ProgressResult),
      (s.sum fun i => results.countP fun R => R.fail_day == some i)
        ≤ results.length := by
  intro results
  induction results with
  | nil => simp
  | cons R rest ih =>
    have hcons : ∀ i : ℕ,
        ((R :: rest).countP fun Q => Q.fail_day == some i)
          = (rest.countP fun Q => Q.fail_day == some i)
            + (if R.fail_day == some i then 1 else 0) := by
      intro i
      rw [List.countP_cons]
    have hsum :
        (s.sum fun i => (R :: rest).countP fun Q => Q.fail_day == some i)
          = (s.sum fun i => rest.countP fun Q => Q.fail_day == some i)
            + (s.sum fun i => if R.fail_day == some i then 1 else 0) := by
      rw [← Finset.sum_add_distrib]
      exact Finset.sum_congr rfl fun i _ => hcons i
    have hind : (s.sum fun i => if R.fail_day == some i then 1 else 0) ≤ 1 := by
      cases hR : R.fail_day with
      | none => simp
      | some j =>
        have he : (fun i : ℕ => if (some j : Option ℕ) == some i then 1 else 0)
            = fun i : ℕ => if j = i then 1 else 0 := by
          funext i
          simp
        rw [he, Finset.sum_ite_eq s j (fun _ => 1)]
        by_cases hj : j ∈ s <;> simp [hj]
    rw [hsum]
    simp only [List.length_cons]
    omega

theorem remaining_eq_sub (total : ℤ) (fbd : ℕ → ℕ) :
    ∀ d : ℕ, remaining_by_day total fbd d
      = total - (Finset.Icc 1 d).sum (fun i => (fbd i : ℤ)) := by
  intro d
  induction d with
  | zero => simp [remaining_by_day]
  | succ n ih =>
    rw [remaining_by_day, ih, Finset.sum_Icc_succ_top (by omega : 1 ≤ n + 1)]
    omega

/-- C6: `remaining[0]` is the total member count and
`remaining[d] = remaining[d-1] - filtered_by_day[d]`, so `remaining` is
non-increasing; a day whose previous remaining count is zero is skipped
(`none`) instead of dividing by zero; and a day with zero eliminations gets
`pass_frac = 1` and `percent_filtered` exactly `0`. -/
theorem C6_survival (total : ℤ) (fbd : ℕ → ℕ) (d : ℕ) :
    remaining_by_day total fbd 0 = total ∧
    remaining_by_day total fbd (d + 1)
      = remaining_by_day total fbd d - (fbd (d + 1) : ℤ) ∧
    remaining_by_day total fbd (d + 1) ≤ remaining_by_day total fbd d ∧
    (remaining_by_day total fbd d = 0 → day_stats total fbd (d + 1) = none) ∧
    (remaining_by_day total fbd d ≠ 0 → fbd (d + 1) = 0 →
      day_stats total fbd (d + 1)
        = some (1, 0, 100 * ((remaining_by_day total fbd (d + 1) : ℚ)
            / (remaining_by_day total fbd 0 : ℚ)))) := by
  refine ⟨rfl, rfl, ?_, ?_, ?_⟩
  · rw [remaining_by_day]
    have : (0 : ℤ) ≤ (fbd (d + 1) : ℤ) := by positivity
    omega
  · intro h
    simp [day_stats, h]
  · intro h hf
    have hstep : remaining_by_day total fbd (d + 1) = remaining_by_day total fbd d := by
      rw [remaining_by_day, hf]
      simp
    have hq : ((remaining_by_day total fbd d : ℤ) : ℚ) ≠ 0 := by
      exact_mod_cast h
    simp only [day_stats, Nat.add_sub_cancel, if_neg h]
    rw [hstep, div_self hq]
    norm_num

/-- C6, witness: with two members and no eliminations, day 1 reports
`pass_frac = 1` and `percent_filtered = 0`. -/
theorem C6_survival_witness :
    day_stats 2 (fun _ => 0) 1
      = some (1, 0, 100 * ((remaining_by_day 2 (fun _ => 0) 1 : ℚ)
          / (remaining_by_day 2 (fun _ => 0) 0 : ℚ))) :=
  (C6_survival 2 (fun _ => 0) 0).2.2.2.2 (by decide) rfl

/-- C10: every member increments the tally of at most one day (the scan
breaks at its first failing day), so the tally summed over all days is at
most the member count, and the remaining-population curve never goes
negative. -/
theorem C10_tally_conservation (o : Opts) (es : ℤ) (members : List Member)
    (rs : ℕ → ℚ) (d : ℕ) :
    (Finset.Icc 1 o.days_total).sum (filtered_by_day o es members rs)
        ≤ members.length ∧
    0 ≤ remaining_by_day (members.length : ℤ)
        (filtered_by_day o es members rs) d := by
  have hlen : (getMemberProgress o es members rs).length = members.length := by
    rw [getMemberProgress]
    simp
  constructor
  · have := sum_countP_fail_le (Finset.Icc 1 o.days_total)
      (getMemberProgress o es members rs)
    rw [hlen] at this
    exact this
  · rw [remaining_eq_sub]
    have hsum := sum_countP_fail_le (Finset.Icc 1 d) (getMemberProgress o es members rs)
    rw [hlen] at hsum
    have hcast : (Finset.Icc 1 d).sum
        (fun i => ((filtered_by_day o es members rs i : ℤ)))
        = (((Finset.Icc 1 d).sum (filtered_by_day o es members rs) : ℕ) : ℤ) := by
      exact_mod_cast rfl
    rw [hcast]
    have : ((Finset.Icc 1 d).sum (filtered_by_day o es members rs) : ℕ)
        ≤ members.length := hsum
    omega

/-! ### Helper lemmas about the ranking pass -/

theorem order_func_trans (mode : OrderMode) :
    ∀ a b c : EMember,
      (fun x y => decide (order_func mode x ≤ order_func mode y)) a b →
      (fun x y => decide (order_func mode x ≤ order_func mode y)) b c →
      (fun x y => decide (order_func mode x ≤ order_func mode y)) a c := by
  intro a b c hab hbc
  simp only [decide_eq_true_eq] at hab hbc ⊢
  exact le_trans hab hbc

theorem order_func_total (mode : OrderMode) :
    ∀ a b : EMember,
      (fun x y => decide (order_func mode x ≤ order_func mode y)) a b
        || (fun x y => decide (order_func mode x ≤ order_func mode y)) b a := by
  intro a b
  rcases le_total (order_func mode a) (order_func mode b) with h | h <;> simp [h]

theorem members_ordered_perm (mode : OrderMode) (members : List EMember) :
    List.Perm (members_ordered mode members) members.enum :=
  List.mergeSort_perm _ _

theorem members_ordered_length (mode : OrderMode) (members : List EMember) :
    (members_ordered mode members).length = members.length := by
  rw [(members_ordered_perm mode members).length_eq]
  simp

theorem members_ordered_mem {mode : OrderMode} {members : List EMember}
    {x : ℕ × EMember} (h : x ∈ members_ordered mode members) :
    x ∈ members.enum := by
  rw [members_ordered, List.mem_mergeSort] at h
  exact h

theorem enum_mem_get {α : Type} {l : List α} {p : ℕ × α} (h : p ∈ l.enum) :
    ∃ hlt : p.1 < l.length, l.get ⟨p.1, hlt⟩ = p.2 := by
  rw [List.mem_enum_iff_get?] at h
  rw [List.get?_eq_some] at h
  exact h

theorem enum_fst_inj {α : Type} {l : List α} {x y : ℕ × α}
    (hx : x ∈ l.enum) (hy : y ∈ l.enum) (h : x.1 = y.1) : x = y := by
  rw [List.mem_enum_iff_get?] at hx hy
  rw [h] at hx
  rw [hx] at hy
  have h2 : x.2 = y.2 := by
    exact Option.some.inj hy
  exact Prod.ext h h2

theorem enum_mem_snd {α : Type} {l : List α} {p : ℕ × α} (h : p ∈ l.enum) :
    p.2 ∈ l := by
  obtain ⟨hlt, hget⟩ := enum_mem_get h
  rw [← hget]
  exact l.get_mem p.1 hlt

theorem members_ordered_sorted (mode : OrderMode) (members : List EMember) :
    (members_ordered mode members).Pairwise
      (fun a b => (List.enumLE
        (fun x y => decide (order_func mode x ≤ order_func mode y)) a b) = true) :=
  List.sorted_mergeSort
    (List.enumLE_trans (order_func_trans mode))
    (List.enumLE_total (order_func_total mode))
    members.enum

theorem members_ordered_fst_nodup (mode : OrderMode) (members : List EMember) :
    ((members_ordered mode members).map Prod.fst).Nodup := by
  have hperm := (members_ordered_perm mode members).map Prod.fst
  exact hperm.nodup_iff.mpr (List.nodup_enum_map_fst members)

theorem members_ordered_stable (mode : OrderMode) (members : List EMember) :
    (members_ordered mode members).Pairwise
      (fun a b => order_func mode a.2 < order_func mode b.2 ∨
        (order_func mode a.2 = order_func mode b.2 ∧ a.1 < b.1)) := by
  have hs := members_ordered_sorted mode members
  have hn : (members_ordered mode members).Pairwise (fun a b => a.1 ≠ b.1) :=
    List.pairwise_map.mp (members_ordered_fst_nodup mode members)
  refine (hs.and hn).imp ?_
  intro a b h
  obtain ⟨hle, hne⟩ := h
  rw [List.enumLE] at hle
  by_cases h1 : order_func mode a.2 ≤ order_func mode b.2
  · by_cases h2 : order_func mode b.2 ≤ order_func mode a.2
    · right
      refine ⟨le_antisymm h1 h2, ?_⟩
      rw [if_pos (by simpa using h1), if_pos (by simpa using h2)] at hle
      have : a.1 ≤ b.1 := by simpa using hle
      omega
    · left
      exact lt_of_le_not_le h1 h2
  · rw [if_neg (by simpa using h1)] at hle
    exact absurd hle (by simp)

theorem primary_assign_ys (mode : OrderMode) (members : List EMember) :
    (primary_assign mode members).map (fun e => e.2)
      = (List.range members.length).map
          (fun i : ℕ => ((i : ℚ) + 1) / (members.length : ℚ)) := by
  rw [primary_assign, List.map_map]
  have h1 : ((fun e : (ℕ × EMember) × ℚ => e.2)
      ∘ (fun p : ℕ × (ℕ × EMember) =>
          ((p.2 : ℕ × EMember), ((p.1 : ℚ) + 1) / (members.length : ℚ))))
      = (fun i : ℕ => ((i : ℚ) + 1) / (members.length : ℚ)) ∘ Prod.fst := rfl
  rw [h1, ← List.map_map, List.enum_eq_enumFrom, List.enumFrom_map_fst,
    ← List.range_eq_range', members_ordered_length]

theorem primary_assign_fst (mode : OrderMode) (members : List EMember) :
    (primary_assign mode members).map (fun e => e.1)
      = members_ordered mode members := by
  rw [primary_assign, List.map_map]
  have h1 : ((fun e : (ℕ × EMember) × ℚ => e.1)
      ∘ (fun p : ℕ × (ℕ × EMember) =>
          ((p.2 : ℕ × EMember), ((p.1 : ℚ) + 1) / (members.length : ℚ))))
      = Prod.snd := rfl
  rw [h1, List.enum_eq_enumFrom, List.enumFrom_map_snd]

theorem primary_assign_mem_enum {mode : OrderMode} {members : List EMember}
    {e : (ℕ × EMember) × ℚ} (h : e ∈ primary_assign mode members) :
    e.1 ∈ members.enum := by
  have : e.1 ∈ (primary_assign mode members).map (fun e => e.1) :=
    List.mem_map_of_mem _ h
  rw [primary_assign_fst] at this
  exact members_ordered_mem this

theorem primary_assign_y_mem {mode : OrderMode} {members : List EMember}
    {e : (ℕ × EMember) × ℚ} (h : e ∈ primary_assign mode members) :
    0 < e.2 ∧ e.2 ≤ 1 := by
  rw [primary_assign] at h
  rw [List.mem_map] at h
  obtain ⟨p, hp, he⟩ := h
  obtain ⟨hlt, -⟩ := enum_mem_get hp
  rw [members_ordered_length] at hlt
  have hn : 0 < members.length := by omega
  have hy : e.2 = ((p.1 : ℚ) + 1) / (members.length : ℚ) := by
    rw [← he]
  have hnq : (0 : ℚ) < (members.length : ℚ) := by exact_mod_cast hn
  constructor
  · rw [hy]
    apply div_pos _ hnq
    positivity
  · rw [hy]
    rw [div_le_one hnq]
    have : (p.1 : ℚ) + 1 ≤ (members.length : ℚ) := by
      exact_mod_cast hlt
    exact this

theorem pymod_nonneg (a : ℚ) {b : ℚ} (hb : 0 < b) : 0 ≤ pymod a b := by
  rw [pymod]
  have h1 : (⌊a / b⌋ : ℚ) ≤ a / b := Int.floor_le _
  have h2 : b * (⌊a / b⌋ : ℚ) ≤ b * (a / b) :=
    mul_le_mul_of_nonneg_left h1 (le_of_lt hb)
  rw [mul_div_cancel₀ a (ne_of_gt hb)] at h2
  linarith

theorem pymod_lt (a : ℚ) {b : ℚ} (hb : 0 < b) : pymod a b < b := by
  rw [pymod]
  have h1 : a / b < (⌊a / b⌋ : ℚ) + 1 := Int.lt_floor_add_one _
  have h2 : b * (a / b) < b * ((⌊a / b⌋ : ℚ) + 1) :=
    (mul_lt_mul_left hb).mpr h1
  rw [mul_div_cancel₀ a (ne_of_gt hb)] at h2
  nlinarith

theorem magic_ms_mem {members : List EMember} {q : ℕ × EMember}
    (h : q ∈ magic_ms members) :
    q ∈ members.enum ∧ q.2.filtered = false := by
  rw [magic_ms, List.mem_mergeSort, List.mem_filter] at h
  refine ⟨h.1, ?_⟩
  have := h.2
  simp at this
  exact this

theorem magic_ms_mem_of {members : List EMember} {q : ℕ × EMember}
    (h1 : q ∈ members.enum) (h2 : q.2.filtered = false) :
    q ∈ magic_ms members := by
  rw [magic_ms, List.mem_mergeSort, List.mem_filter]
  exact ⟨h1, by simp [h2]⟩

theorem magic_ms_fst_nodup (members : List EMember) :
    ((magic_ms members).map Prod.fst).Nodup := by
  have hperm : List.Perm ((magic_ms members).map Prod.fst)
      ((members.enum.filter fun p => !p.2.filtered).map Prod.fst) :=
    (List.mergeSort_perm _ _).map Prod.fst
  refine hperm.nodup_iff.mpr ?_
  have hsub : List.Sublist
      ((members.enum.filter fun p => !p.2.filtered).map Prod.fst)
      (members.enum.map Prod.fst) :=
    (List.filter_sublist _).map Prod.fst
  exact (List.nodup_enum_map_fst members).sublist hsub

theorem magic_assign_eq (members : List EMember) (od : ℚ) (j : ℕ → ℚ) :
    magic_assign members od j
      = (magic_ms members).enum.map
          (fun p => (p.2,
            pymod od (1 / ((magic_ms members).length : ℚ))
              + (p.1 : ℚ) * (1 / ((magic_ms members).length : ℚ)) + j p.1)) := by
  rw [magic_assign]
  by_cases h : (magic_ms members).length = 0
  · rw [if_pos h]
    have hnil : magic_ms members = [] := List.length_eq_zero.mp h
    rw [hnil]
    rfl
  · rw [if_neg h]

theorem find_in_assign (F : ℕ → ℚ) :
    ∀ (ms : List (ℕ × EMember)) (k i : ℕ) (hi : i < ms.length),
      ((ms.map Prod.fst).Nodup) →
      ((ms.enumFrom k).map (fun p => (p.2, F p.1))).find?
          (fun q => q.1.1 == (ms.get ⟨i, hi⟩).1)
        = some (ms.get ⟨i, hi⟩, F (k + i)) := by
  intro ms
  induction ms with
  | nil =>
    intro k i hi
    exact absurd hi (by simp)
  | cons a tail ih =>
    intro k i hi hnd
    rw [List.enumFrom_cons]
    cases i with
    | zero =>
      have hget : (a :: tail).get ⟨0, hi⟩ = a := rfl
      rw [hget]
      rw [List.map_cons, List.find?_cons_of_pos _ (by simp)]
      simp
    | succ n =>
      have hget : (a :: tail).get ⟨n + 1, hi⟩
          = tail.get ⟨n, by simpa using hi⟩ := rfl
      rw [hget]
      have hne : a.1 ≠ (tail.get ⟨n, by simpa using hi⟩).1 := by
        rw [List.map_cons, List.nodup_cons] at hnd
        intro hc
        apply hnd.1
        rw [hc]
        exact List.mem_map_of_mem Prod.fst (tail.get_mem n _)
      rw [List.map_cons, List.find?_cons_of_neg _ (by simpa using hne)]
      have := ih (k + 1) n (by simpa using hi)
        (by rw [List.map_cons, List.nodup_cons] at hnd; exact hnd.2)
      rw [this]
      have harith : k + 1 + n = k + (n + 1) := by omega
      rw [harith]

theorem apply_overwrites_fst (prim ov : List ((ℕ × EMember) × ℚ)) :
    (apply_overwrites prim ov).map (fun e => e.1) = prim.map (fun e => e.1) := by
  rw [apply_overwrites, List.map_map]
  refine List.map_congr_left ?_
  intro e _
  cases hf : ov.find? (fun q => q.1.1 == e.1.1) <;> simp [Function.comp, hf]

theorem apply_overwrites_filter_filtered (members : List EMember)
    (prim ov : List ((ℕ × EMember) × ℚ))
    (hprim : ∀ e ∈ prim, e.1 ∈ members.enum)
    (hov : ∀ q ∈ ov, q.1 ∈ members.enum ∧ q.1.2.filtered = false) :
    (apply_overwrites prim ov).filter (fun e => e.1.2.filtered)
      = prim.filter (fun e => e.1.2.filtered) := by
  rw [apply_overwrites, List.filter_map]
  have hcomp : ((fun e : (ℕ × EMember) × ℚ => e.1.2.filtered)
      ∘ (fun e : (ℕ × EMember) × ℚ =>
        match ov.find? (fun q => q.1.1 == e.1.1) with
        | some q => (e.1, q.2)
        | none => e))
      = fun e : (ℕ × EMember) × ℚ => e.1.2.filtered := by
    funext e
    cases hf : ov.find? (fun q => q.1.1 == e.1.1) <;> simp [Function.comp, hf]
  rw [hcomp]
  have hmapid : List.map (fun e : (ℕ × EMember) × ℚ =>
      match ov.find? (fun q => q.1.1 == e.1.1) with
      | some q => (e.1, q.2)
      | none => e) (prim.filter (fun e => e.1.2.filtered))
      = List.map id (prim.filter (fun e => e.1.2.filtered)) := by
    refine List.map_congr_left ?_
    intro e he
    rw [List.mem_filter] at he
    have hnone : ov.find? (fun q => q.1.1 == e.1.1) = none := by
      rw [List.find?_eq_none]
      intro q hq hbeq
      have hq1 : q.1.1 = e.1.1 := by simpa using hbeq
      have : q.1 = e.1 := enum_fst_inj (hov q hq).1 (hprim e he.1) hq1
      have hfil : e.1.2.filtered = false := by
        rw [← this]
        exact (hov q hq).2
      rw [hfil] at he
      exact absurd he.2 (by simp)
    simp [hnone]
  rw [hmapid, List.map_id]

theorem magic_assign_mem (members : List EMember) (od : ℚ) (j : ℕ → ℚ)
    {q : (ℕ × EMember) × ℚ} (h : q ∈ magic_assign members od j) :
    q.1 ∈ members.enum ∧ q.1.2.filtered = false ∧
    ∃ i : ℕ, ∃ hi : i < (magic_ms members).length,
      (magic_ms members).get ⟨i, hi⟩ = q.1 ∧
      q.2 = pymod od (1 / ((magic_ms members).length : ℚ))
        + (i : ℚ) * (1 / ((magic_ms members).length : ℚ)) + j i := by
  rw [magic_assign_eq, List.mem_map] at h
  obtain ⟨p, hp, hq⟩ := h
  obtain ⟨hlt, hget⟩ := enum_mem_get hp
  have hq1 : q.1 = p.2 := by rw [← hq]
  have hq2 : q.2 = pymod od (1 / ((magic_ms members).length : ℚ))
      + (p.1 : ℚ) * (1 / ((magic_ms members).length : ℚ)) + j p.1 := by
    rw [← hq]
  have hmem : p.2 ∈ magic_ms members := by
    rw [← hget]
    exact (magic_ms members).get_mem p.1 hlt
  obtain ⟨henum, hfil⟩ := magic_ms_mem hmem
  rw [hq1]
  refine ⟨henum, hfil, p.1, hlt, hget, by rw [hq2]⟩

theorem orderMembers_nonmagic (mode : OrderMode) (members : List EMember)
    (od : ℚ) (j : ℕ → ℚ) (h : mode ≠ OrderMode.magic) :
    orderMembers mode members od j = primary_assign mode members := by
  rw [orderMembers, if_neg h]

theorem orderMembers_magic (members : List EMember) (od : ℚ) (j : ℕ → ℚ) :
    orderMembers OrderMode.magic members od j
      = apply_overwrites (primary_assign OrderMode.magic members)
          (magic_assign members od j) := by
  rw [orderMembers, if_pos rfl]

theorem apply_overwrites_nil (prim : List ((ℕ × EMember) × ℚ)) :
    apply_overwrites prim [] = prim := by
  rw [apply_overwrites]
  have : List.map (fun e : (ℕ × EMember) × ℚ =>
      match ([] : List ((ℕ × EMember) × ℚ)).find? (fun q => q.1.1 == e.1.1) with
      | some q => (e.1, q.2)
      | none => e) prim = List.map id prim :=
    List.map_congr_left (fun e _ => by simp)
  rw [this, List.map_id]

theorem orderMembers_mem_enum (mode : OrderMode) (members : List EMember)
    (od : ℚ) (j : ℕ → ℚ) {e : (ℕ × EMember) × ℚ}
    (he : e ∈ orderMembers mode members od j) : e.1 ∈ members.enum := by
  by_cases hm : mode = OrderMode.magic
  · subst hm
    rw [orderMembers_magic, apply_overwrites, List.mem_map] at he
    obtain ⟨e0, he0, hge⟩ := he
    have hfst : e.1 = e0.1 := by
      rw [← hge]
      cases hf0 : (magic_assign members od j).find?
        (fun q => q.1.1 == e0.1.1) <;> simp [hf0]
    rw [hfst]
    exact primary_assign_mem_enum he0
  · rw [orderMembers_nonmagic mode members od j hm] at he
    exact primary_assign_mem_enum he

theorem orderMembers_magic_unfiltered (members : List EMember) (od : ℚ)
    (j : ℕ → ℚ) {e : (ℕ × EMember) × ℚ}
    (he : e ∈ orderMembers OrderMode.magic members od j) :
    ∀ (i : ℕ) (hi : i < (magic_ms members).length),
      (magic_ms members).get ⟨i, hi⟩ = e.1 →
      e.2 = pymod od (1 / ((magic_ms members).length : ℚ))
        + (i : ℚ) * (1 / ((magic_ms members).length : ℚ)) + j i := by
  intro i hi hget
  rw [orderMembers_magic, apply_overwrites, List.mem_map] at he
  obtain ⟨e0, he0, hge⟩ := he
  have hfst : e.1 = e0.1 := by
    rw [← hge]
    cases hf0 : (magic_assign members od j).find?
      (fun q => q.1.1 == e0.1.1) <;> simp [hf0]
  have hkey : ((magic_ms members).get ⟨i, hi⟩).1 = e0.1.1 := by
    rw [hget, hfst]
  have hfind := find_in_assign
    (fun n => pymod od (1 / ((magic_ms members).length : ℚ))
      + (n : ℚ) * (1 / ((magic_ms members).length : ℚ)) + j n)
    (magic_ms members) 0 i hi (magic_ms_fst_nodup members)
  rw [hkey] at hfind
  have hma : (magic_assign members od j).find? (fun q => q.1.1 == e0.1.1)
      = some ((magic_ms members).get ⟨i, hi⟩,
          pymod od (1 / ((magic_ms members).length : ℚ))
            + (i : ℚ) * (1 / ((magic_ms members).length : ℚ)) + j i) := by
    rw [magic_assign_eq, List.enum_eq_enumFrom]
    simpa using hfind
  rw [hma] at hge
  have : e.2 = pymod od (1 / ((magic_ms members).length : ℚ))
      + (i : ℚ) * (1 / ((magic_ms members).length : ℚ)) + j i := by
    rw [← hge]
  exact this

/-! ### Claim theorems: the ranking pass -/

/-- C4: under every non-magic mode the assigned `y` values, read along the
sorted order, are exactly `1/n, 2/n, …, n/n` (each member assigned exactly
once, no duplicate values), and the order is the stable ascending sort on
the mode's key: equal keys keep their insertion order. -/
theorem C4_rank_partition (mode : OrderMode) (members : List EMember)
    (od : ℚ) (j : ℕ → ℚ) (h : mode ≠ OrderMode.magic) :
    ((orderMembers mode members od j).map (fun e => e.1.1)).Perm
        (List.range members.length) ∧
    (orderMembers mode members od j).map (fun e => e.2)
      = (List.range members.length).map
          (fun i : ℕ => ((i : ℚ) + 1) / (members.length : ℚ)) ∧
    ((orderMembers mode members od j).map (fun e => e.2)).Nodup ∧
    (members_ordered mode members).Pairwise
      (fun a b => order_func mode a.2 < order_func mode b.2 ∨
        (order_func mode a.2 = order_func mode b.2 ∧ a.1 < b.1)) := by
  rw [orderMembers_nonmagic mode members od j h]
  refine ⟨?_, primary_assign_ys mode members, ?_,
    members_ordered_stable mode members⟩
  · have h1 : (primary_assign mode members).map (fun e => e.1.1)
        = ((primary_assign mode members).map (fun e => e.1)).map Prod.fst := by
      rw [List.map_map]
      rfl
    rw [h1, primary_assign_fst]
    have h2 := (members_ordered_perm mode members).map Prod.fst
    rw [List.enum_eq_enumFrom, List.enumFrom_map_fst,
      ← List.range_eq_range'] at h2
    exact h2
  · rw [primary_assign_ys]
    by_cases hn : members.length = 0
    · rw [hn]
      simp
    · refine List.Nodup.map ?_ (List.nodup_range _)
      intro a b hab
      have hnq : (members.length : ℚ) ≠ 0 := by exact_mod_cast hn
      have hab2 : (a : ℚ) + 1 = (b : ℚ) + 1 := by
        have hmul := (div_eq_div_iff hnq hnq).mp hab
        exact mul_right_cancel₀ hnq hmul
      have : (a : ℚ) = (b : ℚ) := by linarith
      exact_mod_cast this

/-- C4, witness: a singleton member list under `id1000` mode. -/
theorem C4_rank_partition_witness :
    ((orderMembers OrderMode.id1000 [emU] 0 (fun _ => 0)).map
        (fun e => e.1.1)).Perm (List.range 1) ∧
    (orderMembers OrderMode.id1000 [emU] 0 (fun _ => 0)).map (fun e => e.2)
      = (List.range 1).map (fun i : ℕ => ((i : ℚ) + 1) / ((1 : ℕ) : ℚ)) ∧
    ((orderMembers OrderMode.id1000 [emU] 0 (fun _ => 0)).map
        (fun e => e.2)).Nodup ∧
    (members_ordered OrderMode.id1000 [emU]).Pairwise
      (fun a b => order_func OrderMode.id1000 a.2 < order_func OrderMode.id1000 b.2 ∨
        (order_func OrderMode.id1000 a.2 = order_func OrderMode.id1000 b.2 ∧
          a.1 < b.1)) :=
  C4_rank_partition OrderMode.id1000 [emU] 0 (fun _ => 0) (by decide)

/-- C5: in magic mode, filtered members keep the `y` of the primary
`id % 1000` sort (the magic pass neither reorders members nor touches
filtered entries); the unfiltered members, re-sorted stably by `id % 1000`,
receive `offset + i * (1/k) + jitter i` at position `i` of `k`, where
`offset` is the shared draw reduced mod `1/k`; the de-jittered positions are
strictly increasing in `i`; and with no unfiltered member the pass is a
no-op. -/
theorem C5_magic_pass (members : List EMember) (od : ℚ) (j : ℕ → ℚ) :
    ((orderMembers OrderMode.magic members od j).filter
        (fun e => e.1.2.filtered)
      = (primary_assign OrderMode.magic members).filter
          (fun e => e.1.2.filtered)) ∧
    ((orderMembers OrderMode.magic members od j).map (fun e => e.1)
      = (primary_assign OrderMode.magic members).map (fun e => e.1)) ∧
    (magic_assign members od j
      = (magic_ms members).enum.map
          (fun p => (p.2, pymod od (1 / ((magic_ms members).length : ℚ))
            + (p.1 : ℚ) * (1 / ((magic_ms members).length : ℚ)) + j p.1))) ∧
    (∀ e ∈ orderMembers OrderMode.magic members od j,
      e.1.2.filtered = false →
      ∀ (i : ℕ) (hi : i < (magic_ms members).length),
        (magic_ms members).get ⟨i, hi⟩ = e.1 →
        e.2 = pymod od (1 / ((magic_ms members).length : ℚ))
          + (i : ℚ) * (1 / ((magic_ms members).length : ℚ)) + j i) ∧
    (∀ i1 i2 : ℕ, i1 < i2 → i2 < (magic_ms members).length →
      pymod od (1 / ((magic_ms members).length : ℚ))
          + (i1 : ℚ) * (1 / ((magic_ms members).length : ℚ))
        < pymod od (1 / ((magic_ms members).length : ℚ))
          + (i2 : ℚ) * (1 / ((magic_ms members).length : ℚ))) ∧
    (magic_ms members = [] →
      orderMembers OrderMode.magic members od j
        = primary_assign OrderMode.magic members) := by
  refine ⟨?_, ?_, magic_assign_eq members od j, ?_, ?_, ?_⟩
  · rw [orderMembers_magic]
    exact apply_overwrites_filter_filtered members _ _
      (fun e he => primary_assign_mem_enum he)
      (fun q hq => ⟨(magic_assign_mem members od j hq).1,
        (magic_assign_mem members od j hq).2.1⟩)
  · rw [orderMembers_magic]
    exact apply_overwrites_fst _ _
  · intro e he hf i hi hget
    exact orderMembers_magic_unfiltered members od j he i hi hget
  · intro i1 i2 h12 h2
    have hk : (0 : ℚ) < ((magic_ms members).length : ℚ) := by
      have : 0 < (magic_ms members).length := by omega
      exact_mod_cast this
    have hdy : (0 : ℚ) < 1 / ((magic_ms members).length : ℚ) :=
      one_div_pos.mpr hk
    have hq12 : (i1 : ℚ) < (i2 : ℚ) := by exact_mod_cast h12
    have := mul_lt_mul_of_pos_right hq12 hdy
    linarith
  · intro hnil
    rw [orderMembers_magic]
    have hma : magic_assign members od j = [] := by
      rw [magic_assign_eq, hnil]
      rfl
    rw [hma]
    exact apply_overwrites_nil _

/-- C5, witness: a filtered singleton makes the pass a no-op, and a single
unfiltered member with offset draw `1/2` and jitter `1/8` lands at
`offset + 0 * 1 + 1/8 = 5/8`. -/
theorem C5_magic_pass_witness :
    (orderMembers OrderMode.magic [emF] 0 (fun _ => 0)
      = primary_assign OrderMode.magic [emF]) ∧
    ((((0 : ℕ), emU), (5 : ℚ)/8).2
      = pymod (1/2) (1 / ((magic_ms [emU]).length : ℚ))
        + ((0 : ℕ) : ℚ) * (1 / ((magic_ms [emU]).length : ℚ)) + (1 : ℚ)/8) := by
  constructor
  · exact (C5_magic_pass [emF] 0 (fun _ => 0)).2.2.2.2.2
      (by simp [magic_ms, List.enum, List.enumFrom, emF])
  · have hms : magic_ms [emU] = [(0, emU)] := by
      simp [magic_ms, List.enum, List.enumFrom, emU]
    have hout : orderMembers OrderMode.magic [emU] (1/2) (fun _ => 1/8)
        = [(((0 : ℕ), emU), (5 : ℚ)/8)] := by
      simp [orderMembers, apply_overwrites, primary_assign, members_ordered,
        magic_assign, magic_ms, List.enum, List.enumFrom, pymod, emU]
      norm_num [Int.fract]
    have hi : 0 < (magic_ms [emU]).length := by
      rw [hms]
      decide
    have hget : (magic_ms [emU]).get ⟨0, hi⟩ = (((0 : ℕ), emU), (5 : ℚ)/8).1 := by
      simp [hms]
    exact (C5_magic_pass [emU] (1/2) (fun _ => 1/8)).2.2.2.1
      (((0 : ℕ), emU), (5 : ℚ)/8)
      (by rw [hout]; exact List.mem_singleton.mpr rfl)
      rfl 0 hi hget

/-- C9 (amended): under every non-magic mode the assigned position lies in
`(0, 1]`; under magic mode this still holds for filtered members (they keep
the primary position), but an unfiltered member's position only lies in
`[-1/(4k), 1 + 1/(4k))` where `k` is the number of unfiltered members — it
can be `≤ 0` or `> 1`. -/
theorem C9_rank_range (mode : OrderMode) (members : List EMember) (od : ℚ)
    (j : ℕ → ℚ) :
    ∀ e ∈ orderMembers mode members od j,
      (mode ≠ OrderMode.magic → 0 < e.2 ∧ e.2 ≤ 1) ∧
      (e.1.2.filtered = true → 0 < e.2 ∧ e.2 ≤ 1) ∧
      (mode = OrderMode.magic → e.1.2.filtered = false →
        (∀ i, |j i| ≤ 1 / (4 * ((magic_ms members).length : ℚ))) →
        -(1 / (4 * ((magic_ms members).length : ℚ))) ≤ e.2 ∧
          e.2 < 1 + 1 / (4 * ((magic_ms members).length : ℚ))) := by
  intro e he
  by_cases hm : mode = OrderMode.magic
  · subst hm
    refine ⟨fun hc => absurd rfl hc, ?_, ?_⟩
    · intro hf
      have hmem : e ∈ (orderMembers OrderMode.magic members od j).filter
          (fun q => q.1.2.filtered) :=
        List.mem_filter.mpr ⟨he, by simp [hf]⟩
      rw [orderMembers_magic, apply_overwrites_filter_filtered members _ _
        (fun q hq => primary_assign_mem_enum hq)
        (fun q hq => ⟨(magic_assign_mem members od j hq).1,
          (magic_assign_mem members od j hq).2.1⟩)] at hmem
      exact primary_assign_y_mem (List.mem_filter.mp hmem).1
    · intro _ hf hj
      have henum : e.1 ∈ members.enum :=
        orderMembers_mem_enum OrderMode.magic members od j he
      have hms : e.1 ∈ magic_ms members := magic_ms_mem_of henum hf
      rw [List.mem_iff_get] at hms
      obtain ⟨n, hn⟩ := hms
      have hval := orderMembers_magic_unfiltered members od j he n.1 n.2
        (by rw [← hn])
      set k : ℚ := ((magic_ms members).length : ℚ) with hk
      have hkpos : (0 : ℚ) < k := by
        rw [hk]
        have hlen : 0 < (magic_ms members).length := by
          have := n.2
          omega
        exact_mod_cast hlen
      have hdy : (0 : ℚ) < 1 / k := one_div_pos.mpr hkpos
      have hoff0 : 0 ≤ pymod od (1 / k) := pymod_nonneg od hdy
      have hoff1 : pymod od (1 / k) < 1 / k := pymod_lt od hdy
      have hibound : (n.1 : ℚ) ≤ k - 1 := by
        have h1 : n.1 + 1 ≤ (magic_ms members).length := n.2
        have h2 : ((n.1 : ℚ) + 1) ≤ k := by
          rw [hk]
          exact_mod_cast h1
        linarith
      have hinn : (0 : ℚ) ≤ (n.1 : ℚ) := by positivity
      have hjb := hj n.1
      rw [abs_le] at hjb
      have hquarter : 1 / (4 * k) = (1 / k) / 4 := by
        rw [div_div]
        ring_nf
      have hmul : (n.1 : ℚ) * (1 / k) ≤ (k - 1) * (1 / k) :=
        mul_le_mul_of_nonneg_right hibound (le_of_lt hdy)
      have hcancel : k * (1 / k) = 1 := mul_one_div_cancel (ne_of_gt hkpos)
      rw [hval]
      constructor
      · have : (0 : ℚ) ≤ (n.1 : ℚ) * (1 / k) := by positivity
        linarith [hjb.1]
      · have hsum : pymod od (1 / k) + (n.1 : ℚ) * (1 / k)
            < 1 / k + (k - 1) * (1 / k) := by
          linarith
        have hone : 1 / k + (k - 1) * (1 / k) = 1 := by
          field_simp
        linarith [hjb.2]
  · rw [orderMembers_nonmagic mode members od j hm] at he
    have hb := primary_assign_y_mem he
    exact ⟨fun _ => hb, fun _ => hb, fun hc => absurd hc hm⟩

/-- C9, counterexample to the claim as stated: in magic mode with one
unfiltered member, offset draw `0` and zero jitter, the assigned position is
`0`, which is outside `(0, 1]`. -/
theorem C9_rank_range_cex :
    ¬ (∀ e ∈ orderMembers OrderMode.magic [emU] 0 (fun _ => 0),
        0 < e.2 ∧ e.2 ≤ 1) := by
  intro h
  have hout : orderMembers OrderMode.magic [emU] 0 (fun _ => 0)
      = [(((0 : ℕ), emU), (0 : ℚ))] := by
    simp [orderMembers, apply_overwrites, primary_assign, members_ordered,
      magic_assign, magic_ms, List.enum, List.enumFrom, pymod, emU]
  have hb := h (((0 : ℕ), emU), (0 : ℚ))
    (by rw [hout]; exact List.mem_singleton.mpr rfl)
  simp at hb

/-- C9, witness: a non-magic singleton gets position `1 ∈ (0,1]`; a filtered
member keeps its in-range position under magic mode; a magic-mode unfiltered
member with bounded jitter stays within the widened band. -/
theorem C9_rank_range_witness :
    (0 < ((((0 : ℕ), emU), (1 : ℚ))).2 ∧ ((((0 : ℕ), emU), (1 : ℚ))).2 ≤ 1) ∧
    (-(1 / (4 * ((magic_ms [emU]).length : ℚ)))
        ≤ ((((0 : ℕ), emU), (5 : ℚ)/8)).2 ∧
      ((((0 : ℕ), emU), (5 : ℚ)/8)).2
        < 1 + 1 / (4 * ((magic_ms [emU]).length : ℚ))) := by
  constructor
  · have hout : orderMembers OrderMode.id1000 [emU] 0 (fun _ => 0)
        = [(((0 : ℕ), emU), (1 : ℚ))] := by
      simp [orderMembers, primary_assign, members_ordered, List.enum,
        List.enumFrom, emU]
    exact (C9_rank_range OrderMode.id1000 [emU] 0 (fun _ => 0)
      (((0 : ℕ), emU), (1 : ℚ))
      (by rw [hout]; exact List.mem_singleton.mpr rfl)).1 (by decide)
  · have hms : magic_ms [emU] = [(0, emU)] := by
      simp [magic_ms, List.enum, List.enumFrom, emU]
    have hout : orderMembers OrderMode.magic [emU] (1/2) (fun _ => 1/8)
        = [(((0 : ℕ), emU), (5 : ℚ)/8)] := by
      simp [orderMembers, apply_overwrites, primary_assign, members_ordered,
        magic_assign, magic_ms, List.enum, List.enumFrom, pymod, emU]
      norm_num [Int.fract]
    refine (C9_rank_range OrderMode.magic [emU] (1/2) (fun _ => 1/8)
      (((0 : ℕ), emU), (5 : ℚ)/8)
      (by rw [hout]; exact List.mem_singleton.mpr rfl)).2.2 rfl rfl ?_
    intro i
    rw [hms]
    rw [abs_of_pos (by norm_num : (0:ℚ) < 1/8)]
    norm_num

/-- C8: two runs differing only in the random draws agree on
`progress_exact`, `filtered`, `fail_day`, on the enriched records the ranker
reads, and on every non-magic ranking; `progress` deviates from
`progress_exact` by at most `15/100` (by at most `5/100` when the first
failure is in part 2), and a magic-mode position deviates from its de-jittered
slot anchor by at most a quarter slot width. -/
theorem C8_jitter_hyperproperty (o : Opts) (es : ℤ) (comp : ℕ → Option DayLevel)
    (r r' : ℚ) (mode : OrderMode) (members : List EMember)
    (membersM : List Member) (rs rs' : ℕ → ℚ) (od od' : ℚ) (j j' : ℕ → ℚ) :
    ((memberProgress o es comp r).progress_exact
      = (memberProgress o es comp r').progress_exact) ∧
    ((memberProgress o es comp r).filtered
      = (memberProgress o es comp r').filtered) ∧
    ((memberProgress o es comp r).fail_day
      = (memberProgress o es comp r').fail_day) ∧
    (0 ≤ r → r < 1 →
      |(memberProgress o es comp r).progress
        - (memberProgress o es comp r).progress_exact| ≤ 15/100) ∧
    (0 ≤ r → r < 1 → ∀ d, (memberProgress o es comp r).fail_day = some d →
      passDay1 o es comp d = true →
      |(memberProgress o es comp r).progress
        - (memberProgress o es comp r).progress_exact| ≤ 5/100) ∧
    (enrichAll o es membersM rs = enrichAll o es membersM rs') ∧
    (mode ≠ OrderMode.magic →
      orderMembers mode members od j = orderMembers mode members od' j') ∧
    (∀ q ∈ magic_assign members od j,
      (∀ i, |j i| ≤ 1 / (4 * ((magic_ms members).length : ℚ))) →
      ∃ i : ℕ, i < (magic_ms members).length ∧
        |q.2 - (pymod od (1 / ((magic_ms members).length : ℚ))
          + (i : ℚ) * (1 / ((magic_ms members).length : ℚ)))|
          ≤ 1 / (4 * ((magic_ms members).length : ℚ))) := by
  obtain ⟨h1, h2, h3⟩ := scanFrom_r_irrel o es comp r r'
    (o.days_total + 1 - o.day_min) o.day_min
  refine ⟨h1, h2, h3, ?_, ?_, ?_, ?_, ?_⟩
  · intro hr0 hr1
    exact (scanFrom_bounds o es comp hr0 hr1 _ _).1
  · intro hr0 hr1 d hd hp
    exact (scanFrom_bounds o es comp hr0 hr1 _ _).2 d hd hp
  · rw [enrichAll, enrichAll]
    refine List.map_congr_left ?_
    intro p _
    obtain ⟨g1, g2, -⟩ := scanFrom_r_irrel o es p.2.completion_day_level
      (rs p.1) (rs' p.1) (o.days_total + 1 - o.day_min) o.day_min
    rw [enrichMember, enrichMember, memberProgress, memberProgress]
    rw [g1, g2]
  · intro hm
    rw [orderMembers_nonmagic mode members od j hm,
      orderMembers_nonmagic mode members od' j' hm]
  · intro q hq hj
    obtain ⟨-, -, i, hi, -, hval⟩ := magic_assign_mem members od j hq
    refine ⟨i, hi, ?_⟩
    rw [hval]
    have : pymod od (1 / ((magic_ms members).length : ℚ))
        + (i : ℚ) * (1 / ((magic_ms members).length : ℚ)) + j i
        - (pymod od (1 / ((magic_ms members).length : ℚ))
          + (i : ℚ) * (1 / ((magic_ms members).length : ℚ))) = j i := by
      ring
    rw [this]
    exact hj i

/-- C8, witness: a member with no stars in a not-yet-elapsed event has the
same `progress_exact` under draws `0` and `1/2`, and the draw-`0` run's
jitter stays within the bound; a non-magic ranking is unchanged when the
ranking draws change. -/
theorem C8_jitter_hyperproperty_witness :
    ((memberProgress o130 0 compNone 0).progress_exact
      = (memberProgress o130 0 compNone (1/2)).progress_exact) ∧
    (|(memberProgress o130 0 compNone 0).progress
      - (memberProgress o130 0 compNone 0).progress_exact| ≤ 15/100) ∧
    (orderMembers OrderMode.id1000 [emU] 0 (fun _ => 0)
      = orderMembers OrderMode.id1000 [emU] (1/2) (fun _ => 1/8)) := by
  refine ⟨?_, ?_, ?_⟩
  · exact (C8_jitter_hyperproperty o130 0 compNone 0 (1/2) OrderMode.id1000
      [] [] (fun _ => 0) (fun _ => 0) 0 0 (fun _ => 0) (fun _ => 0)).1
  · exact (C8_jitter_hyperproperty o130 0 compNone 0 (1/2) OrderMode.id1000
      [] [] (fun _ => 0) (fun _ => 0) 0 0 (fun _ => 0) (fun _ => 0)).2.2.2.1
      (by norm_num) (by norm_num)
  · exact (C8_jitter_hyperproperty o130 0 compNone 0 (1/2) OrderMode.id1000
      [emU] [] (fun _ => 0) (fun _ => 0) 0 (1/2) (fun _ => 0)
      (fun _ => 1/8)).2.2.2.2.2.2.1 (by decide)
